import Mathlib

/-!
Verification of the fire-statistics data-lake pipeline
(`fire_project`: bronze / silver / gold layer assets).

Each Python transformation relevant to the checked claims is shallowly
embedded as an executable Lean function over lists and strings:

* `standardise_header`   — `silver_layer.standardise_headers` (per column)
* `add_financial_year_value` — `silver_layer.add_financial_year` (per row)
* `calculate_midpoint`   — `silver_layer.calculate_midpoint`
* `applyDrillThroughMapping` — `silver_layer.apply_drill_through_mapping`
* `populationScaffoldFill` — `silver_layer.population_silver` (scaffold+fill)
* `dim_geography`        — `gold_layer.dim_geography` (join + dedup)
* `factPopulationLSOA`   — `gold_layer.fact_population` (row-level fact)
* `dimFRSUnique` / `dimFRSWritten` — `gold_layer.dim_frs`
* `processGroupIdx`      — `bronze_layer.fire_stats_bronze_all` (write modes)

Strings are modelled as Lean `String` / `List Char`; ASCII semantics are
used for `str.lower()`.  Numeric text is parsed into `ℚ` (the Python code
uses floats only on small decimal literals, where the arithmetic involved
is exact).  Pandas frames become lists of structures; `NaN` cells become
`Option` values.
-/

namespace FireProj

/-! ### Character-level helpers (ASCII model of the Python string ops) -/

/-- A character matching the regex class `[a-z0-9]`
(`silver_layer.standardise_headers` works on lowercased text). -/
def isLowerAlnum (c : Char) : Bool :=
  (97 ≤ c.toNat && c.toNat ≤ 122) || (48 ≤ c.toNat && c.toNat ≤ 57)

/-- ASCII model of Python `str.lower()` applied to one character. -/
def toLowerASCII (c : Char) : Char :=
  if 65 ≤ c.toNat ∧ c.toNat ≤ 90 then Char.ofNat (c.toNat + 32) else c

/-- Python `str.strip()` on a list of characters (whitespace at both ends). -/
def pyStripChars (l : List Char) : List Char :=
  ((l.dropWhile Char.isWhitespace).reverse.dropWhile Char.isWhitespace).reverse

/-- Python `str.strip()` on a `String`. -/
def pyStrip (s : String) : String := String.mk (pyStripChars s.data)

/-- Python `str.lower()` on a `String` (ASCII model). -/
def pyLower (s : String) : String := String.mk (s.data.map toLowerASCII)

/-! ### `standardise_headers` (silver_layer.py lines 78-86) -/

/-- Does the list start with the field-prefix token `p_` or `c_`? -/
def startsWithFieldTag (l : List Char) : Bool :=
  match l with
  | a :: b :: _ => (a == 'p' || a == 'c') && b == '_'
  | _ => false

/-- `re.sub(r"^[pc]_", "", c)`: strip one leading field-prefix token. -/
def stripFieldTag (l : List Char) : List Char :=
  if startsWithFieldTag l = true then l.drop 2 else l

/-- Worker for the collapse of non-alphanumeric runs: `inSep` records
whether we are inside a run whose `'_'` was already emitted. -/
def collapseGo (inSep : Bool) : List Char → List Char
  | [] => []
  | c :: rest =>
    if isLowerAlnum c then c :: collapseGo false rest
    else if inSep then collapseGo true rest
    else '_' :: collapseGo true rest

/-- `re.sub(r'[^a-z0-9]+', '_', c)`: collapse every maximal run of
non-alphanumeric characters to a single underscore. -/
def collapseSep (l : List Char) : List Char := collapseGo false l

/-- `.strip('_')`: remove underscores from both ends. -/
def stripEdgeUnderscores (l : List Char) : List Char :=
  ((l.dropWhile (· == '_')).reverse.dropWhile (· == '_')).reverse

/-- The per-column body of `silver_layer.standardise_headers`:
`c = str(col).strip().lower()`, then `re.sub(r"^[pc]_", "", c)`, then
`re.sub(r'[^a-z0-9]+', '_', c).strip('_')`. -/
def normalizeChars (l : List Char) : List Char :=
  stripEdgeUnderscores
    (collapseSep (stripFieldTag ((pyStripChars l).map toLowerASCII)))

/-- `standardise_headers` applied to one column name. -/
def standardise_header (s : String) : String :=
  String.mk (normalizeChars s.data)

/-- `standardise_headers` applied to a full header row. -/
def standardise_headers (cols : List String) : List String :=
  cols.map standardise_header

/-! ### Structural facts about `standardise_header` output -/

/-- Adjacent characters are never both separators after the collapse. -/
def sepChainR (a b : Char) : Prop :=
  isLowerAlnum a = true ∨ isLowerAlnum b = true

theorem dropWhile_eq_self_of_head {α : Type} (p : α → Bool) (l : List α)
    (h : ∀ c, l.head? = some c → p c = false) : l.dropWhile p = l := by
  cases l with
  | nil => rfl
  | cons a tl => simp [List.dropWhile_cons, h a rfl]

theorem dropWhile_eq_self_of_all {α : Type} (p : α → Bool) (l : List α)
    (h : ∀ c ∈ l, p c = false) : l.dropWhile p = l := by
  cases l with
  | nil => rfl
  | cons a tl => simp [List.dropWhile_cons, h a (by simp)]

theorem pyStripChars_eq_self (l : List Char)
    (h : ∀ c ∈ l, c.isWhitespace = false) : pyStripChars l = l := by
  unfold pyStripChars
  rw [dropWhile_eq_self_of_all _ _ h,
      dropWhile_eq_self_of_all _ _ (fun c hc => h c (List.mem_reverse.mp hc)),
      List.reverse_reverse]

theorem head?_dropWhile_false {α : Type} (p : α → Bool) (l : List α) (c : α)
    (h : (l.dropWhile p).head? = some c) : p c = false := by
  induction l with
  | nil => simp at h
  | cons a tl ih =>
    rw [List.dropWhile_cons] at h
    by_cases hp : p a = true
    · rw [if_pos hp] at h; exact ih h
    · rw [if_neg hp] at h
      simp at h
      subst h
      simpa using hp

theorem getLast?_dropWhile_eq {α : Type} (p : α → Bool) (l : List α) (c : α)
    (h : (l.dropWhile p).getLast? = some c) : l.getLast? = some c := by
  induction l with
  | nil => simp at h
  | cons a tl ih =>
    rw [List.dropWhile_cons] at h
    by_cases hp : p a = true
    · rw [if_pos hp] at h
      have htl := ih h
      cases tl with
      | nil => simp at htl
      | cons b tb => rw [List.getLast?_cons_cons]; exact htl
    · rw [if_neg hp] at h; exact h

theorem stripEdgeUnderscores_eq_self (l : List Char)
    (hh : ∀ c, l.head? = some c → (c == '_') = false)
    (hl : ∀ c, l.getLast? = some c → (c == '_') = false) :
    stripEdgeUnderscores l = l := by
  unfold stripEdgeUnderscores
  rw [dropWhile_eq_self_of_head _ _ hh,
      dropWhile_eq_self_of_head _ _ (fun c hc => hl c (by rwa [List.head?_reverse] at hc)),
      List.reverse_reverse]

theorem mem_stripEdgeUnderscores (l : List Char) (c : Char)
    (h : c ∈ stripEdgeUnderscores l) : c ∈ l := by
  unfold stripEdgeUnderscores at h
  rw [List.mem_reverse] at h
  have h1 := List.Sublist.mem h (List.dropWhile_sublist _)
  rw [List.mem_reverse] at h1
  exact List.Sublist.mem h1 (List.dropWhile_sublist _)

theorem head?_stripEdgeUnderscores (l : List Char) (c : Char)
    (h : (stripEdgeUnderscores l).head? = some c) : (c == '_') = false := by
  unfold stripEdgeUnderscores at h
  rw [List.head?_reverse] at h
  have h2 := getLast?_dropWhile_eq (· == '_') _ _ h
  rw [List.getLast?_reverse] at h2
  exact head?_dropWhile_false (· == '_') _ _ h2

theorem getLast?_stripEdgeUnderscores (l : List Char) (c : Char)
    (h : (stripEdgeUnderscores l).getLast? = some c) : (c == '_') = false := by
  unfold stripEdgeUnderscores at h
  rw [List.getLast?_reverse] at h
  exact head?_dropWhile_false (· == '_') _ _ h

theorem mem_collapseGo (l : List Char) (flag : Bool) (c : Char)
    (h : c ∈ collapseGo flag l) : isLowerAlnum c = true ∨ c = '_' := by
  induction l generalizing flag with
  | nil => simp [collapseGo] at h
  | cons a tl ih =>
    rw [collapseGo] at h
    by_cases ha : isLowerAlnum a = true
    · rw [if_pos ha] at h
      rcases List.mem_cons.mp h with h | h
      · subst h; exact Or.inl ha
      · exact ih false h
    · rw [if_neg ha] at h
      cases flag with
      | true => exact ih true (by simpa using h)
      | false =>
        simp only [Bool.false_eq_true, if_false] at h
        rcases List.mem_cons.mp h with h | h
        · subst h; exact Or.inr rfl
        · exact ih true h

theorem collapseGo_true_head (l : List Char) (c : Char)
    (h : (collapseGo true l).head? = some c) : isLowerAlnum c = true := by
  induction l with
  | nil => simp [collapseGo] at h
  | cons a tl ih =>
    rw [collapseGo] at h
    by_cases ha : isLowerAlnum a = true
    · rw [if_pos ha] at h; simp at h; subst h; exact ha
    · rw [if_neg ha] at h; simp only [if_pos rfl] at h; exact ih h

theorem chain'_collapseGo (l : List Char) (flag : Bool) :
    List.Chain' sepChainR (collapseGo flag l) := by
  induction l generalizing flag with
  | nil => simp [collapseGo]
  | cons a tl ih =>
    rw [collapseGo]
    by_cases ha : isLowerAlnum a = true
    · rw [if_pos ha]
      exact List.chain'_cons'.mpr ⟨fun y _ => Or.inl ha, ih false⟩
    · rw [if_neg ha]
      cases flag with
      | true => simpa using ih true
      | false =>
        simp only [Bool.false_eq_true, if_false]
        refine List.chain'_cons'.mpr ⟨fun y hy => ?_, ih true⟩
        exact Or.inr (collapseGo_true_head tl y hy)

theorem collapseGo_true_eq_false (l : List Char)
    (h : ∀ c, l.head? = some c → isLowerAlnum c = true) :
    collapseGo true l = collapseGo false l := by
  cases l with
  | nil => rfl
  | cons a tl => rw [collapseGo, collapseGo, if_pos (h a rfl), if_pos (h a rfl)]

theorem collapseGo_eq_self (l : List Char)
    (hmem : ∀ c ∈ l, isLowerAlnum c = true ∨ c = '_')
    (hch : List.Chain' sepChainR l) : collapseGo false l = l := by
  induction l with
  | nil => rfl
  | cons a tl ih =>
    rw [collapseGo]
    rcases List.chain'_cons'.mp hch with ⟨hrel, htl⟩
    have ihtl := ih (fun c hc => hmem c (List.mem_cons_of_mem a hc)) htl
    rcases hmem a (List.mem_cons_self a tl) with ha | ha
    · rw [if_pos ha, ihtl]
    · subst ha
      have hna : isLowerAlnum '_' = true → False := by decide
      rw [if_neg hna]
      have hhead : ∀ c, tl.head? = some c → isLowerAlnum c = true := by
        intro c hc
        rcases hrel c (by simp [hc]) with hbad | hok
        · exact absurd hbad hna
        · exact hok
      rw [collapseGo_true_eq_false tl hhead, ihtl]
      simp

theorem toLowerASCII_fixed (c : Char)
    (h : isLowerAlnum c = true ∨ c = '_') : toLowerASCII c = c := by
  rcases h with h | h
  · unfold toLowerASCII
    unfold isLowerAlnum at h
    simp at h
    rw [if_neg]
    omega
  · subst h; decide

theorem not_whitespace_of_alnum_or_sep (c : Char)
    (h : isLowerAlnum c = true ∨ c = '_') : c.isWhitespace = false := by
  rcases h with h | h
  · unfold isLowerAlnum at h
    simp at h
    simp only [Char.isWhitespace, Bool.or_eq_false_iff, decide_eq_false_iff_not]
    refine ⟨⟨⟨fun hc => ?_, fun hc => ?_⟩, fun hc => ?_⟩, fun hc => ?_⟩ <;>
      (subst hc; revert h; decide)
  · subst h; decide

theorem stripFieldTag_eq_self (l : List Char)
    (h : startsWithFieldTag l = false) : stripFieldTag l = l := by
  unfold stripFieldTag
  rw [h]
  simp

/-- Every character of a normalized header is a lowercase alphanumeric or
an underscore. -/
theorem mem_normalizeChars (l : List Char) (c : Char)
    (h : c ∈ normalizeChars l) : isLowerAlnum c = true ∨ c = '_' :=
  mem_collapseGo _ false c (mem_stripEdgeUnderscores _ c h)

theorem chain'_dropWhile_of {α : Type} {R : α → α → Prop} {p : α → Bool}
    {l : List α} (h : List.Chain' R l) : List.Chain' R (l.dropWhile p) := by
  induction l with
  | nil => simp
  | cons a tl ih =>
    rw [List.dropWhile_cons]
    by_cases hp : p a = true
    · rw [if_pos hp]; exact ih h.tail
    · rw [if_neg hp]; exact h

theorem chain'_normalizeChars (l : List Char) :
    List.Chain' sepChainR (normalizeChars l) := by
  unfold normalizeChars collapseSep stripEdgeUnderscores
  have h0 := chain'_collapseGo (stripFieldTag ((pyStripChars l).map toLowerASCII)) false
  have symm : ∀ a b, sepChainR a b → flip sepChainR a b := fun a b hr => hr.symm
  have h1 := chain'_dropWhile_of (p := (· == '_')) h0
  have h2 := List.chain'_reverse.mpr (h1.imp symm)
  have h3 := chain'_dropWhile_of (p := (· == '_')) h2
  exact List.chain'_reverse.mpr (h3.imp symm)

theorem map_toLowerASCII_eq_self (l : List Char)
    (h : ∀ c ∈ l, isLowerAlnum c = true ∨ c = '_') :
    l.map toLowerASCII = l := by
  induction l with
  | nil => rfl
  | cons a tl ih =>
    rw [List.map_cons, toLowerASCII_fixed a (h a (by simp)),
        ih (fun c hc => h c (List.mem_cons_of_mem a hc))]

/-- A second pass of the header standardisation is the identity whenever
its input already is a standardised header that does not itself start
with a `p_`/`c_` field-prefix token. -/
theorem normalizeChars_fixed (t : List Char)
    (hmem : ∀ c ∈ t, isLowerAlnum c = true ∨ c = '_')
    (hch : List.Chain' sepChainR t)
    (hh : ∀ c, t.head? = some c → (c == '_') = false)
    (hl : ∀ c, t.getLast? = some c → (c == '_') = false)
    (htag : startsWithFieldTag t = false) :
    normalizeChars t = t := by
  unfold normalizeChars collapseSep
  rw [pyStripChars_eq_self t (fun c hc => not_whitespace_of_alnum_or_sep c (hmem c hc)),
      map_toLowerASCII_eq_self t hmem,
      stripFieldTag_eq_self t htag,
      collapseGo_eq_self t hmem hch,
      stripEdgeUnderscores_eq_self t hh hl]

/-- C1, amended, at the character-list level. -/
theorem normalizeChars_idem (l : List Char)
    (h : startsWithFieldTag (normalizeChars l) = false) :
    normalizeChars (normalizeChars l) = normalizeChars l :=
  normalizeChars_fixed (normalizeChars l)
    (mem_normalizeChars l)
    (chain'_normalizeChars l)
    (fun c hc => head?_stripEdgeUnderscores _ c hc)
    (fun c hc => getLast?_stripEdgeUnderscores _ c hc)
    h

/-- C1 (corrected claim falls out of this counterexample): header
normalization is NOT idempotent for every header string.  The header
`"p a"` normalizes to `"p_a"` (the space is collapsed to `_`, and `"p a"`
does not start with the literal token `p_`), but a second pass then sees
a leading `p_` field-prefix token and strips it, yielding `"a"`. -/
theorem c1_counterexample :
    standardise_header "p a" = "p_a" ∧
    standardise_header (standardise_header "p a") = "a" ∧
    standardise_header (standardise_header "p a") ≠ standardise_header "p a" := by
  refine ⟨rfl, by decide, by decide⟩

/-- C1 (amended): header normalization (strip/lowercase, strip a leading
field-prefix token `p_`/`c_`, collapse non-alphanumeric runs to `_`,
strip edge underscores) is idempotent for every header string whose
normalized form does not itself begin with a field-prefix token `p_` or
`c_`; only a normalized header that starts with such a token is changed
by a second pass. -/
theorem c1_theorem (s : String)
    (h : startsWithFieldTag (standardise_header s).data = false) :
    standardise_header (standardise_header s) = standardise_header s := by
  have h2 : startsWithFieldTag (normalizeChars s.data) = false := h
  have h3 := normalizeChars_idem s.data h2
  show String.mk (normalizeChars (standardise_header s).data) = standardise_header s
  have h4 : (standardise_header s).data = normalizeChars s.data := rfl
  rw [h4, h3]
  rfl

/-- C1 witness: a concrete header on which the amended idempotence
theorem applies. -/
theorem c1_theorem_witness :
    standardise_header (standardise_header "A b!") = standardise_header "A b!" :=
  c1_theorem "A b!" (by decide)

/-! ### `add_financial_year` (silver_layer.py lines 88-99)

A cell of the located date column is modelled as `Option CalDate`:
`pd.to_datetime(..., errors='coerce')` turns an unparseable cell into
`NaT`, modelled as `none`.  `CalDate` carries the fields the function
reads (`dt.month`, `dt.year`). -/

/-- A parsed calendar date as seen through `dt.year` / `dt.month`. -/
structure CalDate where
  year : Int
  month : Int
deriving Repr, DecidableEq

/-- Python `str(int_value)` for the integers appearing here. -/
def intToString (n : Int) : String := toString n

/-- Python `s[-2:]`: the last two characters of a string. -/
def lastTwoChars (s : String) : String :=
  String.mk (s.data.drop (s.data.length - 2))

/-- The fiscal-year start computed by `np.where(month >= 4, year, year-1)`. -/
def fyStart (d : CalDate) : Int :=
  if d.month ≥ 4 then d.year else d.year - 1

/-- The format string `str(fy_start) + "/" + str(fy_start + 1)[-2:]`. -/
def fyFormat (start : Int) : String :=
  intToString start ++ "/" ++ lastTwoChars (intToString (start + 1))

/-- Row-level body of `silver_layer.add_financial_year`: a parseable date
gets the formatted fiscal year; an unparseable one (masked out by
`~np.isnan(fy_start)`) gets no value and raises no error. -/
def add_financial_year_value (cell : Option CalDate) : Option String :=
  cell.map (fun d => fyFormat (fyStart d))

/-- C6 (confirmed): financial-year derivation.  For a parseable date with
month ≥ 4 the derived string is `year ++ "/" ++ last-two-digits-of (year+1)`;
for month < 4 it is `(year-1) ++ "/" ++ last-two-digits-of year`;
2024-05-01 gives "2024/25" and 2024-02-01 gives "2023/24"; an unparseable
date cell yields no financial-year value (and, the function being total,
no error). -/
theorem c6_theorem (d : CalDate) :
    (d.month ≥ 4 →
      add_financial_year_value (some d) =
        some (intToString d.year ++ "/" ++ lastTwoChars (intToString (d.year + 1)))) ∧
    (d.month < 4 →
      add_financial_year_value (some d) =
        some (intToString (d.year - 1) ++ "/" ++ lastTwoChars (intToString d.year))) ∧
    add_financial_year_value (some ⟨2024, 5⟩) = some "2024/25" ∧
    add_financial_year_value (some ⟨2024, 2⟩) = some "2023/24" ∧
    add_financial_year_value none = none := by
  refine ⟨fun h => ?_, fun h => ?_, by decide, by decide, rfl⟩
  · simp [add_financial_year_value, fyFormat, fyStart, h]
  · have hn : ¬ d.month ≥ 4 := by omega
    have e : d.year - 1 + 1 = d.year := by omega
    simp [add_financial_year_value, fyFormat, fyStart, hn, e]

/-- C6 witness: the theorem applied at concrete dates, discharging both
month hypotheses. -/
theorem c6_theorem_witness :
    add_financial_year_value (some ⟨2024, 5⟩) =
      some (intToString 2024 ++ "/" ++ lastTwoChars (intToString (2024 + 1))) ∧
    add_financial_year_value (some ⟨2024, 2⟩) =
      some (intToString (2024 - 1) ++ "/" ++ lastTwoChars (intToString 2024)) :=
  ⟨(c6_theorem ⟨2024, 5⟩).1 (by decide), (c6_theorem ⟨2024, 2⟩).2.1 (by decide)⟩

/-! ### `calculate_midpoint` (silver_layer.py lines 101-112)

Free-text numbers are parsed into `ℚ` (every value the function computes
on its decimal-literal inputs is exact, so `ℚ` models the Python floats
faithfully here).  `re.findall(r"(\d+\.?\d*)", text)` is modelled by a
left-to-right scanner with the same grammar: a digit run, an optional
dot, an optional second digit run. -/

/-- Does `l` start with the pattern `pre`? -/
def leadsWith : List Char → List Char → Bool
  | [], _ => true
  | _ :: _, [] => false
  | a :: as, b :: bs => a == b && leadsWith as bs

/-- Python `sub in s` on character lists: substring containment. -/
def containsSub (needle : List Char) : List Char → Bool
  | [] => needle.isEmpty
  | c :: rest => leadsWith needle (c :: rest) || containsSub needle rest

/-- The numeric value of a scanned number: integer part plus an optional
fractional part of `n` digits. -/
def numValue (ip : Nat) : Option (Nat × Nat) → ℚ
  | none => (ip : ℚ)
  | some (fp, n) => (ip : ℚ) + (fp : ℚ) / (10 : ℚ) ^ n

/-- Scanner state: `none` = outside a number, `some (ip, none)` = inside
the integer part `ip`, `some (ip, some (fp, n))` = after the dot with
fractional digits `fp` of length `n`. -/
def scanNumbers : List Char → Option (Nat × Option (Nat × Nat)) → List ℚ
  | [], none => []
  | [], some (ip, f) => [numValue ip f]
  | c :: rest, none =>
    if c.isDigit then scanNumbers rest (some (c.toNat - 48, none))
    else scanNumbers rest none
  | c :: rest, some (ip, none) =>
    if c.isDigit then scanNumbers rest (some (ip * 10 + (c.toNat - 48), none))
    else if c == '.' then scanNumbers rest (some (ip, some (0, 0)))
    else numValue ip none :: scanNumbers rest none
  | c :: rest, some (ip, some (fp, n)) =>
    if c.isDigit then scanNumbers rest (some (ip, some (fp * 10 + (c.toNat - 48), n + 1)))
    else numValue ip (some (fp, n)) :: scanNumbers rest none

/-- `[float(x) for x in re.findall(r"(\d+\.?\d*)", text)]`. -/
def extractNumbers (l : List Char) : List ℚ := scanNumbers l none

/-- The null-like tokens of `calculate_midpoint`. -/
def placeholderTokens : List String := ["", ".", "nan", "None", "not known"]

/-- The lower-bound keywords of `calculate_midpoint`. -/
def midpointKeywords : List String := ["more", "over", "+", "plus"]

/-- `np.mean` of a list of numbers. -/
def pyMean (l : List ℚ) : ℚ := l.sum / (l.length : ℚ)

/-- `text = str(text_value).lower().strip()` of `calculate_midpoint`. -/
def midpointText (s : String) : List Char :=
  pyStripChars (s.data.map toLowerASCII)

/-- `silver_layer.calculate_midpoint` on a text cell.  `np.nan` results
are modelled as `none`. -/
def calculate_midpoint (s : String) : Option ℚ :=
  if pyStrip s ∈ placeholderTokens then none
  else
    match extractNumbers (midpointText s) with
    | [] => none
    | n :: rest =>
      if midpointKeywords.any (fun k => containsSub k.data (midpointText s)) then
        some n
      else if containsSub "up to".data (midpointText s) then
        some (n / 2)
      else
        some (pyMean (n :: rest))

/-- C5 (corrected claim falls out of this counterexample): the claim's
clause "a text containing `up to` and a number yields half the first
number" is false as stated, because the `more`/`over`/`+`/`plus` rule is
checked FIRST in the code.  `"up to 10 or more"` contains `"up to"` and
the number 10, yet yields 10.0, not 5.0. -/
theorem c5_counterexample :
    containsSub "up to".data (midpointText "up to 10 or more") = true ∧
    extractNumbers (midpointText "up to 10 or more") = [10] ∧
    calculate_midpoint "up to 10 or more" = some 10 ∧
    calculate_midpoint "up to 10 or more" ≠ some (10 / 2) := by
  refine ⟨by decide, ?_, ?_, ?_⟩ <;>
    (simp +decide [calculate_midpoint, midpointText, extractNumbers, scanNumbers,
      pyStrip, pyStripChars, placeholderTokens, midpointKeywords, containsSub,
      leadsWith, numValue, pyMean, toLowerASCII]; try norm_num)

/-- C5 (amended): midpoint estimation maps free-text ranges to a single
value, with the keyword rules applied in the code's order: a text whose
numbers were found and that contains `more`/`over`/`+`/`plus` yields the
first number; otherwise a text containing `up to` yields half the first
number; otherwise the arithmetic mean of all numbers found; empty or
placeholder tokens yield an absent value.  Examples: "up to 10" → 5.0,
"more than 5" → 5.0, "3 to 7" → 5.0, "" and "not known" → absent. -/
theorem c5_theorem (s : String) (n : ℚ) (rest : List ℚ)
    (hph : pyStrip s ∉ placeholderTokens)
    (hnum : extractNumbers (midpointText s) = n :: rest) :
    (midpointKeywords.any (fun k => containsSub k.data (midpointText s)) = true →
        calculate_midpoint s = some n) ∧
    (midpointKeywords.any (fun k => containsSub k.data (midpointText s)) = false →
      containsSub "up to".data (midpointText s) = true →
        calculate_midpoint s = some (n / 2)) ∧
    (midpointKeywords.any (fun k => containsSub k.data (midpointText s)) = false →
      containsSub "up to".data (midpointText s) = false →
        calculate_midpoint s = some (pyMean (n :: rest))) ∧
    calculate_midpoint "up to 10" = some 5 ∧
    calculate_midpoint "more than 5" = some 5 ∧
    calculate_midpoint "3 to 7" = some 5 ∧
    calculate_midpoint "" = none ∧
    calculate_midpoint "not known" = none := by
  have hbody : calculate_midpoint s =
      (if midpointKeywords.any (fun k => containsSub k.data (midpointText s)) then
        some n
      else if containsSub "up to".data (midpointText s) then
        some (n / 2)
      else
        some (pyMean (n :: rest))) := by
    unfold calculate_midpoint
    rw [if_neg hph, hnum]
  refine ⟨fun hk => ?_, fun hk hu => ?_, fun hk hu => ?_, ?_, ?_, ?_, by decide, by decide⟩
  · rw [hbody, if_pos hk]
  · rw [hbody, if_neg (by simp [hk]), if_pos hu]
  · rw [hbody, if_neg (by simp [hk]), if_neg (by simp [hu])]
  all_goals
    simp +decide [calculate_midpoint, midpointText, extractNumbers, scanNumbers,
      pyStrip, pyStripChars, placeholderTokens, midpointKeywords, containsSub,
      leadsWith, numValue, pyMean, toLowerASCII]
  all_goals norm_num

/-- C5 witness: the amended theorem applied to "up to 10" (the up-to
branch) with every hypothesis discharged concretely. -/
theorem c5_theorem_witness :
    calculate_midpoint "up to 10" = some ((10 : ℚ) / 2) :=
  ( c5_theorem "up to 10" 10 [] (by decide)
      (by simp +decide [midpointText, extractNumbers, scanNumbers, pyStripChars,
            numValue, toLowerASCII])).2.1
    (by decide) (by decide)

/-! ### `apply_drill_through_mapping` (silver_layer.py lines 114-132) -/

/-- The fixed category-name→integer table of
`apply_drill_through_mapping`. -/
def type_mapping : List (String × Int) :=
  [("Dwellings", 10), ("Dwelling", 10), ("Dwelling fires", 10), ("Chimney Fires", 10),
   ("Other Buildings", 20), ("Other building", 20),
   ("Road Vehicles", 30), ("Road Vehicle", 30),
   ("Secondary Fires", 31), ("Other Outdoors", 32), ("Other Outdoor", 32), ("Grass Fire", 32),
   ("Due to apparatus", 40), ("Good intent", 40), ("Malicious", 40), ("False Alarm", 40),
   ("Non-fire false alarms", 40),
   ("Non-fire incidents", 50)]

/-- One cell of `clean_key.map(type_mapping).fillna(99).astype(int)`:
the trimmed value looked up in the table, absent values becoming the
sentinel 99. -/
def drillThroughId (v : String) : Int :=
  (type_mapping.lookup (pyStrip v)).getD 99

/-- `apply_drill_through_mapping` on the incident-type column: the
assigned ids, and the list of unmapped values (the warning is logged
exactly when this list is non-empty). -/
def applyDrillThroughMapping (col : List String) : List Int × List String :=
  (col.map drillThroughId, col.filter (fun v => drillThroughId v == 99))

/-- C9 (confirmed): drill-through classification is total and never
fatal.  Every unmapped input value resolves to the sentinel 99 and makes
the unmapped-warning list non-empty (so a warning is logged); every row
of the column receives an id (no exception for any input); and mapped
values receive their table id. -/
theorem c9_theorem (col : List String) (v : String) (hv : v ∈ col)
    (hmiss : type_mapping.lookup (pyStrip v) = none) :
    drillThroughId v = 99 ∧
    v ∈ (applyDrillThroughMapping col).2 ∧
    (applyDrillThroughMapping col).2 ≠ [] ∧
    (applyDrillThroughMapping col).1.length = col.length ∧
    (∀ w i, type_mapping.lookup (pyStrip w) = some i → drillThroughId w = i) := by
  have hid : drillThroughId v = 99 := by
    unfold drillThroughId
    rw [hmiss]
    rfl
  have hmem : v ∈ (applyDrillThroughMapping col).2 := by
    unfold applyDrillThroughMapping
    exact List.mem_filter.mpr ⟨hv, by simp [hid]⟩
  refine ⟨hid, hmem, List.ne_nil_of_mem hmem, List.length_map _ _, fun w i hw => ?_⟩
  unfold drillThroughId
  rw [hw]
  rfl

/-- C9 witness: the value "Wizard Fires" is absent from the table and
resolves to the sentinel on a concrete column. -/
theorem c9_theorem_witness :
    drillThroughId "Wizard Fires" = 99 ∧
    "Wizard Fires" ∈ (applyDrillThroughMapping ["Dwellings", "Wizard Fires"]).2 ∧
    (applyDrillThroughMapping ["Dwellings", "Wizard Fires"]).2 ≠ [] ∧
    (applyDrillThroughMapping ["Dwellings", "Wizard Fires"]).1.length =
      (["Dwellings", "Wizard Fires"] : List String).length ∧
    (∀ w i, type_mapping.lookup (pyStrip w) = some i → drillThroughId w = i) :=
  c9_theorem ["Dwellings", "Wizard Fires"] "Wizard Fires" (by decide) (by decide)

/-! ### Bronze per-group write loop (bronze_layer.py lines 113-180)

`fire_stats_bronze_all` iterates over the files of a dataset group.  A
file can fail to produce rows (missing on disk, parse error, no valid
sheets, empty `file_dfs`): such a file is modelled as `none`.  A file
that produced rows is `some rows`.  Each successful file triggers one
`save_and_vacuum(..., mode, schema_mode)` call; `first_write` is set to
`False` only after a successful write. -/

/-- Write mode of a Delta write (`mode` argument). -/
inductive WMode where
  | overwrite
  | append
deriving Repr, DecidableEq

/-- Schema mode of a Delta write (`schema_mode` argument). -/
inductive SMode where
  | overwriteSchema
  | merge
deriving Repr, DecidableEq

/-- One emitted table write: the 0-based index of the originating file in
the group, the two modes, and the written rows. -/
structure WriteOp (α : Type) where
  fileIdx : Nat
  mode : WMode
  schema : SMode
  rows : α
deriving Repr, DecidableEq

/-- The per-group loop of `fire_stats_bronze_all`, carrying the file
index and the `first_write` flag. -/
def processGroupGo {α : Type} (i : Nat) (firstWrite : Bool) :
    List (Option α) → List (WriteOp α)
  | [] => []
  | none :: rest => processGroupGo (i + 1) firstWrite rest
  | some r :: rest =>
    { fileIdx := i,
      mode := if firstWrite then WMode.overwrite else WMode.append,
      schema := if firstWrite then SMode.overwriteSchema else SMode.merge,
      rows := r } :: processGroupGo (i + 1) false rest

/-- The Bronze writes emitted for one dataset group
(`first_write = True` at the start of the group). -/
def processGroupIdx {α : Type} (files : List (Option α)) : List (WriteOp α) :=
  processGroupGo 0 true files

theorem processGroupGo_map_rows {α : Type} (l : List (Option α)) :
    ∀ i f, (processGroupGo i f l).map (fun w => w.rows) = l.filterMap id := by
  induction l with
  | nil => intro i f; rfl
  | cons a rest ih =>
    intro i f
    cases a with
    | none => simp [processGroupGo, ih (i + 1) f]
    | some r => simp [processGroupGo, ih (i + 1) false]

theorem processGroupGo_false_modes {α : Type} (l : List (Option α)) :
    ∀ i, ∀ w ∈ processGroupGo i false l,
      w.mode = WMode.append ∧ w.schema = SMode.merge := by
  induction l with
  | nil => intro i w hw; simp [processGroupGo] at hw
  | cons a rest ih =>
    intro i w hw
    cases a with
    | none => exact ih (i + 1) w hw
    | some r =>
      rcases List.mem_cons.mp hw with h | h
      · subst h; exact ⟨rfl, rfl⟩
      · exact ih (i + 1) w h

theorem processGroupGo_true_get {α : Type} (l : List (Option α)) :
    ∀ i j (h : j < (processGroupGo i true l).length),
      ((processGroupGo i true l).get ⟨j, h⟩).mode =
        (if j = 0 then WMode.overwrite else WMode.append) ∧
      ((processGroupGo i true l).get ⟨j, h⟩).schema =
        (if j = 0 then SMode.overwriteSchema else SMode.merge) := by
  induction l with
  | nil => intro i j h; simp [processGroupGo] at h
  | cons a rest ih =>
    intro i j h
    cases a with
    | none => exact ih (i + 1) j h
    | some r =>
      cases j with
      | zero => exact ⟨rfl, rfl⟩
      | succ j' =>
        have hmem : (processGroupGo (i + 1) false rest).get
            ⟨j', by simpa [processGroupGo] using h⟩ ∈ processGroupGo (i + 1) false rest :=
          List.get_mem _ _ _
        have hmode := processGroupGo_false_modes rest (i + 1) _ hmem
        simp only [processGroupGo, List.get_cons_succ]
        simpa using hmode

theorem processGroupGo_idx_lb {α : Type} (l : List (Option α)) :
    ∀ i f, ∀ w ∈ processGroupGo i f l, i ≤ w.fileIdx := by
  induction l with
  | nil => intro i f w hw; simp [processGroupGo] at hw
  | cons a rest ih =>
    intro i f w hw
    cases a with
    | none => exact Nat.le_of_succ_le (ih (i + 1) f w hw)
    | some r =>
      rcases List.mem_cons.mp hw with h | h
      · subst h; exact Nat.le_refl i
      · exact Nat.le_of_succ_le (ih (i + 1) false w h)

theorem processGroupGo_idx_mono {α : Type} (l : List (Option α)) :
    ∀ i f, List.Pairwise (fun w w' : WriteOp α => w.fileIdx < w'.fileIdx)
      (processGroupGo i f l) := by
  induction l with
  | nil => intro i f; exact List.Pairwise.nil
  | cons a rest ih =>
    intro i f
    cases a with
    | none => exact ih (i + 1) f
    | some r =>
      refine List.pairwise_cons.mpr ⟨fun w hw => ?_, ih (i + 1) false⟩
      exact Nat.lt_of_succ_le (processGroupGo_idx_lb rest (i + 1) false w hw)

/-- C7 (corrected claim falls out of this counterexample): it is NOT true
that every file of a group other than the first is written in append
mode.  In the group `[none, some 1]` the first file yields no rows
(missing file / parse error / no valid sheets), so the second file gets
the group's first successful write and is written in overwrite mode with
a fresh schema. -/
theorem c7_counterexample :
    processGroupIdx [none, some 1] =
      [{ fileIdx := 1, mode := WMode.overwrite,
         schema := SMode.overwriteSchema, rows := (1 : Nat) }] ∧
    ¬ (∀ (files : List (Option Nat)), ∀ w ∈ processGroupIdx files,
        w.fileIdx ≠ 0 → w.mode = WMode.append ∧ w.schema = SMode.merge) := by
  refine ⟨rfl, fun hclaim => ?_⟩
  have h := hclaim [none, some 1]
    { fileIdx := 1, mode := WMode.overwrite, schema := SMode.overwriteSchema, rows := 1 }
    (by rw [show processGroupIdx [none, some 1] =
      [{ fileIdx := 1, mode := WMode.overwrite,
         schema := SMode.overwriteSchema, rows := (1 : Nat) }] from rfl]; simp)
    (by decide)
  exact absurd h.1 (by decide)

/-- C7 (amended): within a dataset group, Bronze writes are strictly
ordered by file (the written file indices are strictly increasing and the
written row payloads are exactly the successful files in file order), the
FIRST WRITE of the group is in overwrite mode with a fresh (overwrite)
schema, and every subsequent write is in append mode with schema-merge.
(The claim's per-file phrasing fails only when the group's first file
produces no rows; "first file" must read "first successfully processed
file".) -/
theorem c7_theorem {α : Type} (files : List (Option α)) :
    (processGroupIdx files).map (fun w => w.rows) = files.filterMap id ∧
    List.Pairwise (fun w w' : WriteOp α => w.fileIdx < w'.fileIdx)
      (processGroupIdx files) ∧
    ∀ j (h : j < (processGroupIdx files).length),
      ((processGroupIdx files).get ⟨j, h⟩).mode =
        (if j = 0 then WMode.overwrite else WMode.append) ∧
      ((processGroupIdx files).get ⟨j, h⟩).schema =
        (if j = 0 then SMode.overwriteSchema else SMode.merge) :=
  ⟨processGroupGo_map_rows files 0 true,
   processGroupGo_idx_mono files 0 true,
   fun j h => processGroupGo_true_get files 0 j h⟩

/-- C7 witness: a concrete three-file group (second file failed), with
the positional-mode clause instantiated at the second write. -/
theorem c7_theorem_witness :
    ((processGroupIdx [some 10, none, some 20]).map (fun w => w.rows) =
      ([some 10, none, some 20] : List (Option Nat)).filterMap id) ∧
    ((processGroupIdx [some (10 : Nat), none, some 20]).get ⟨1, by decide⟩).mode =
      (if 1 = 0 then WMode.overwrite else WMode.append) :=
  ⟨(c7_theorem [some 10, none, some 20]).1,
   ((c7_theorem [some 10, none, some 20]).2.2 1 (by decide)).1⟩

/-! ### `drop_duplicates(subset=[key], keep='first')`

Pandas keeps a row iff its key has not occurred earlier; `seen`
accumulates the keys already kept. -/

def dedupFirstBy {α κ : Type} [BEq κ] (key : α → κ) : List κ → List α → List α
  | _, [] => []
  | seen, a :: rest =>
    if seen.contains (key a) then dedupFirstBy key seen rest
    else a :: dedupFirstBy key (key a :: seen) rest

theorem dedupFirstBy_subset {α κ : Type} [BEq κ] (key : α → κ) :
    ∀ (seen : List κ) (l : List α) (a : α),
      a ∈ dedupFirstBy key seen l → a ∈ l := by
  intro seen l
  induction l generalizing seen with
  | nil => intro a ha; simp [dedupFirstBy] at ha
  | cons b rest ih =>
    intro a ha
    rw [dedupFirstBy] at ha
    by_cases hc : seen.contains (key b) = true
    · rw [if_pos hc] at ha
      exact List.mem_cons_of_mem b (ih seen a ha)
    · rw [if_neg hc] at ha
      rcases List.mem_cons.mp ha with h | h
      · subst h; exact List.mem_cons_self a rest
      · exact List.mem_cons_of_mem b (ih (key b :: seen) a h)

theorem dedupFirstBy_not_seen {α κ : Type} [BEq κ] [LawfulBEq κ] (key : α → κ) :
    ∀ (seen : List κ) (l : List α) (a : α),
      a ∈ dedupFirstBy key seen l → seen.contains (key a) = false := by
  intro seen l
  induction l generalizing seen with
  | nil => intro a ha; simp [dedupFirstBy] at ha
  | cons b rest ih =>
    intro a ha
    rw [dedupFirstBy] at ha
    by_cases hc : seen.contains (key b) = true
    · rw [if_pos hc] at ha
      exact ih seen a ha
    · rw [if_neg hc] at ha
      rcases List.mem_cons.mp ha with h | h
      · subst h; simpa using hc
      · have h2 := ih (key b :: seen) a h
        simp only [List.contains_cons, Bool.or_eq_false_iff] at h2
        exact h2.2

theorem dedupFirstBy_nodup {α κ : Type} [BEq κ] [LawfulBEq κ] (key : α → κ) :
    ∀ (seen : List κ) (l : List α),
      ((dedupFirstBy key seen l).map key).Nodup := by
  intro seen l
  induction l generalizing seen with
  | nil => simp [dedupFirstBy]
  | cons b rest ih =>
    rw [dedupFirstBy]
    by_cases hc : seen.contains (key b) = true
    · rw [if_pos hc]; exact ih seen
    · rw [if_neg hc]
      rw [List.map_cons, List.nodup_cons]
      refine ⟨fun hmem => ?_, ih (key b :: seen)⟩
      rcases List.mem_map.mp hmem with ⟨a, ha, hka⟩
      have h2 := dedupFirstBy_not_seen key (key b :: seen) rest a ha
      rw [hka] at h2
      simp at h2

theorem dedupFirstBy_find? {α κ : Type} [BEq κ] [LawfulBEq κ] (key : α → κ) :
    ∀ (seen : List κ) (l : List α) (k : κ), seen.contains k = false →
      List.find? (fun a => key a == k) (dedupFirstBy key seen l) =
        List.find? (fun a => key a == k) l := by
  intro seen l
  induction l generalizing seen with
  | nil => intro k hk; rfl
  | cons b rest ih =>
    intro k hk
    rw [dedupFirstBy]
    by_cases hc : seen.contains (key b) = true
    · rw [if_pos hc]
      have hne : (key b == k) = false := by
        by_contra hbk
        rw [Bool.not_eq_false, beq_iff_eq] at hbk
        rw [hbk] at hc
        rw [hc] at hk
        exact absurd hk (by simp)
      rw [List.find?_cons, hne]
      exact ih seen k hk
    · rw [if_neg hc]
      by_cases hbk : (key b == k) = true
      · rw [List.find?_cons, List.find?_cons, hbk]
      · simp only [Bool.not_eq_true] at hbk
        rw [List.find?_cons, List.find?_cons, hbk]
        show List.find? (fun a => key a == k) (dedupFirstBy key (key b :: seen) rest) =
          List.find? (fun a => key a == k) rest
        apply ih (key b :: seen) k
        simp only [List.contains_cons, Bool.or_eq_false_iff]
        constructor
        · rw [beq_eq_false_iff_ne] at hbk ⊢
          exact fun he => hbk he.symm
        · exact hk

theorem mem_map_key_iff_find? {α κ : Type} [BEq κ] [LawfulBEq κ] (key : α → κ)
    (l : List α) (k : κ) :
    k ∈ l.map key ↔ (List.find? (fun a => key a == k) l).isSome := by
  rw [List.find?_isSome]
  constructor
  · intro h
    rcases List.mem_map.mp h with ⟨a, ha, hk⟩
    exact ⟨a, ha, by simp [hk]⟩
  · intro h
    rcases h with ⟨a, ha, hk⟩
    exact List.mem_map.mpr ⟨a, ha, by simpa using hk⟩

/-! ### `dim_geography` (gold_layer.py lines 37-94)

The two silver lookup frames are modelled with the columns that
`dim_geography` selects after its name-pattern discovery (LSOA/MSOA/LAD
codes and names on the left; LAD code plus FRA code/name on the right).
`pd.merge(..., how="left")` keeps every left row in order, producing one
output row per matching right row (right columns `NaN`, i.e. `none`,
when there is no match). -/

/-- A row of the `lookup_lsoa_msoa_lad` silver table. -/
structure LLRow where
  lsoa_cd : String
  lsoa_nm : String
  msoa_cd : String
  msoa_nm : String
  lad_cd : String
  lad_nm : String
deriving Repr, DecidableEq

/-- A row of the `lookup_lad_fra` silver table. -/
structure LFRow where
  lad_cd : String
  fra_cd : String
  fra_nm : String
deriving Repr, DecidableEq

/-- A row of the Gold geography dimension (after column renaming). -/
structure GeoRow where
  lsoa_code : String
  lsoa_name : String
  msoa_code : String
  msoa_name : String
  lad_code : String
  lad_name : String
  frs_code : Option String
  frs_name : Option String
deriving Repr, DecidableEq

/-- `FRS_MAPPINGS` of gold_layer.py: historical code → 2023 code. -/
def FRS_MAPPINGS : List (String × String) :=
  [("E31000017", "E31000048"), ("E31000021", "E31000048")]

/-- One joined row: left columns renamed, right columns from the matched
`lookup_lad_fra` row (or `NaN` when unmatched). -/
def mkGeoRow (l : LLRow) (f : Option LFRow) : GeoRow :=
  { lsoa_code := l.lsoa_cd, lsoa_name := l.lsoa_nm,
    msoa_code := l.msoa_cd, msoa_name := l.msoa_nm,
    lad_code := l.lad_cd, lad_name := l.lad_nm,
    frs_code := f.map (fun m => m.fra_cd),
    frs_name := f.map (fun m => m.fra_nm) }

/-- `pd.merge(df_lsoa_lad, df_lad_fra, left_on=lad, right_on=lad,
how="left")` followed by the column selection/renaming. -/
def leftMergeGeo (ll : List LLRow) (lf : List LFRow) : List GeoRow :=
  ll.flatMap (fun l =>
    match lf.filter (fun m => m.lad_cd == l.lad_cd) with
    | [] => [mkGeoRow l none]
    | ms => ms.map (fun m => mkGeoRow l (some m)))

/-- `df_gold['frs_code'].replace(FRS_MAPPINGS)`: codes found in the
merger table are replaced, others (and `NaN`) pass through. -/
def applyFRSMappingsGeo (g : GeoRow) : GeoRow :=
  { g with frs_code := g.frs_code.map (fun c => (FRS_MAPPINGS.lookup c).getD c) }

/-- The merged, renamed, code-remapped geography frame, in merged input
order (the state just before the deduplication). -/
def joinedGeography (ll : List LLRow) (lf : List LFRow) : List GeoRow :=
  (leftMergeGeo ll lf).map applyFRSMappingsGeo

/-- `gold_layer.dim_geography`:
`drop_duplicates(subset=['lsoa_code'], keep='first')` on the joined
frame. -/
def dim_geography (ll : List LLRow) (lf : List LFRow) : List GeoRow :=
  dedupFirstBy (fun g => g.lsoa_code) [] (joinedGeography ll lf)

/-- C4 (confirmed): after the geography-dimension build, the dimension
has exactly one row per `lsoa_code` (its key column is duplicate-free,
and it has a row for a key exactly when the joined input does), and the
kept row for every key is the first occurrence of that key in the merged
input order (`find?` over the dimension agrees with `find?` over the
joined frame for every key). -/
theorem c4_theorem (ll : List LLRow) (lf : List LFRow) (k : String) :
    ((dim_geography ll lf).map (fun g => g.lsoa_code)).Nodup ∧
    List.find? (fun g => g.lsoa_code == k) (dim_geography ll lf) =
      List.find? (fun g => g.lsoa_code == k) (joinedGeography ll lf) ∧
    (k ∈ (dim_geography ll lf).map (fun g => g.lsoa_code) ↔
      k ∈ (joinedGeography ll lf).map (fun g => g.lsoa_code)) := by
  refine ⟨dedupFirstBy_nodup _ [] _, dedupFirstBy_find? _ [] _ k rfl, ?_⟩
  rw [mem_map_key_iff_find? (fun g => g.lsoa_code) (dim_geography ll lf) k,
      mem_map_key_iff_find? (fun g => g.lsoa_code) (joinedGeography ll lf) k,
      dim_geography, dedupFirstBy_find? _ [] _ k rfl]

/-! ### `dim_frs` (gold_layer.py lines 143-231)

The harvest loop produces `(code, name)` pairs (already reduced to the
discovered code/name column pair of each dataset); the Lean model starts
from that pair list.  `sort_values(by=['frs_e_code','name_len'],
ascending=[True,False])` is modelled by a deterministic sort with the
same sort key — pandas' default quicksort leaves the order of tied rows
unspecified, and the properties proved here are independent of the tie
order. -/

/-- A harvested `frs_e_code`/`frs_name` pair. -/
structure FRSPair where
  frs_e_code : String
  frs_name : String
deriving Repr, DecidableEq

/-- `MASTER_FRS_NAMES` of gold_layer.py. -/
def MASTER_FRS_NAMES : List (String × String) :=
  [("E31000048", "Hampshire and Isle of Wight Fire and Rescue Service"),
   ("E31000047", "Dorset & Wiltshire"),
   ("E31000008", "Cornwall")]

/-- `len(c) == 9 and c[0] in ['E', 'S', 'W']`. -/
def codeShapeOK (c : String) : Bool :=
  (c.length == 9) &&
    (c.data.headD ' ' == 'E' || c.data.headD ' ' == 'S' || c.data.headD ' ' == 'W')

/-- The per-pair remap: `if c in FRS_MAPPINGS: c = FRS_MAPPINGS[c];
if c in MASTER_FRS_NAMES: n = MASTER_FRS_NAMES[c]`. -/
def applyFRSMappingPair (c n : String) : FRSPair :=
  match FRS_MAPPINGS.lookup c with
  | some c2 => { frs_e_code := c2, frs_name := (MASTER_FRS_NAMES.lookup c2).getD n }
  | none => { frs_e_code := c, frs_name := n }

/-- The harvest filter of `dim_frs`: strip both fields, keep only pairs
whose code has the 9-char `E`/`S`/`W` shape, remap through the merger
table. -/
def harvestPairs (raw : List (String × String)) : List FRSPair :=
  raw.flatMap (fun p =>
    if codeShapeOK (pyStrip p.1) then
      [applyFRSMappingPair (pyStrip p.1) (pyStrip p.2)]
    else [])

/-- The sort key of `dim_frs`: code ascending, then name length
descending. -/
def frsLe (a b : FRSPair) : Prop :=
  a.frs_e_code < b.frs_e_code ∨
    (a.frs_e_code = b.frs_e_code ∧ b.frs_name.length ≤ a.frs_name.length)

instance : DecidableRel frsLe := fun a b => by
  unfold frsLe
  infer_instance

instance : IsTotal FRSPair frsLe :=
  ⟨fun a b => by
    unfold frsLe
    rcases lt_trichotomy a.frs_e_code b.frs_e_code with h | h | h
    · exact Or.inl (Or.inl h)
    · rcases Nat.le_total b.frs_name.length a.frs_name.length with hn | hn
      · exact Or.inl (Or.inr ⟨h, hn⟩)
      · exact Or.inr (Or.inr ⟨h.symm, hn⟩)
    · exact Or.inr (Or.inl h)⟩

instance : IsTrans FRSPair frsLe :=
  ⟨fun a b c hab hbc => by
    unfold frsLe at hab hbc ⊢
    rcases hab with h1 | ⟨e1, n1⟩
    · rcases hbc with h2 | ⟨e2, n2⟩
      · exact Or.inl (h1.trans h2)
      · exact Or.inl (e2 ▸ h1)
    · rcases hbc with h2 | ⟨e2, n2⟩
      · exact Or.inl (e1 ▸ h2)
      · exact Or.inr ⟨e1.trans e2, n2.trans n1⟩⟩

/-- `df_all.sort_values(by=['frs_e_code','name_len'],
ascending=[True, False])`. -/
def sortFRSPairs (l : List FRSPair) : List FRSPair :=
  List.insertionSort frsLe l

/-- `dim_frs` up to `df_unique`: sort then
`drop_duplicates(subset=['frs_e_code'], keep='first')` (the subsequent
column selection keeps both fields). -/
def dimFRSUnique (raw : List (String × String)) : List FRSPair :=
  dedupFirstBy (fun p => p.frs_e_code) [] (sortFRSPairs (harvestPairs raw))

/-- A row of the written `Dim_FRS` table. -/
structure FRSRow where
  frs_e_code : String
  frs_name : String
  family_group : String
deriving Repr, DecidableEq

/-- The NFCC enrichment of `dim_frs`: left-join the deduplicated
`(master_frs_code, family_group)` pairs on the canonical code and fill
unmatched rows with "Unknown". -/
def dimFRSWritten (raw : List (String × String)) (nfcc : List (String × String)) :
    List FRSRow :=
  (dimFRSUnique raw).flatMap (fun p =>
    match (dedupFirstBy (fun x : String × String => x) [] nfcc).filter
        (fun m => m.1 == p.frs_e_code) with
    | [] => [{ frs_e_code := p.frs_e_code, frs_name := p.frs_name,
               family_group := "Unknown" }]
    | ms => ms.map (fun m => { frs_e_code := p.frs_e_code, frs_name := p.frs_name,
                               family_group := m.2 }))

/-- In a list sorted by code-ascending/name-length-descending, the first
row found for a code has the maximal name length among all rows with
that code. -/
theorem sorted_find?_maxlen (l : List FRSPair) (k : String) (x : FRSPair)
    (hs : List.Pairwise frsLe l)
    (hf : List.find? (fun p => p.frs_e_code == k) l = some x) :
    ∀ y ∈ l, y.frs_e_code = k → y.frs_name.length ≤ x.frs_name.length := by
  induction l with
  | nil => simp at hf
  | cons a tl ih =>
    rcases List.pairwise_cons.mp hs with ⟨hrel, htl⟩
    intro y hy hyk
    rw [List.find?_cons] at hf
    by_cases ha : (a.frs_e_code == k) = true
    · rw [ha] at hf
      simp only [Option.some.injEq] at hf
      subst hf
      rcases List.mem_cons.mp hy with h | h
      · subst h; exact Nat.le_refl _
      · have hr := hrel y h
        rcases hr with hlt | ⟨_, hle⟩
        · rw [beq_iff_eq] at ha
          rw [ha, hyk] at hlt
          exact absurd hlt (lt_irrefl k)
        · exact hle
    · simp only [Bool.not_eq_true] at ha
      rw [ha] at hf
      rcases List.mem_cons.mp hy with h | h
      · subst h
        rw [beq_eq_false_iff_ne] at ha
        exact absurd hyk ha
      · exact ih htl hf y h hyk

/-- C8 (confirmed): in the organization (FRS) dimension build, the
deduplication after the code-ascending/name-length-descending sort keeps
exactly one row per canonical code (duplicate-free key column; a code is
present in the dimension iff it was harvested), and for every harvested
canonical code the kept row is a harvested row of that code whose name
length is maximal among all harvested names for the code. -/
theorem c8_theorem (raw : List (String × String)) (k : String)
    (hk : k ∈ (harvestPairs raw).map (fun p => p.frs_e_code)) :
    ((dimFRSUnique raw).map (fun p => p.frs_e_code)).Nodup ∧
    (k ∈ (dimFRSUnique raw).map (fun p => p.frs_e_code)) ∧
    ∃ x, x ∈ dimFRSUnique raw ∧ x.frs_e_code = k ∧ x ∈ harvestPairs raw ∧
      ∀ p ∈ harvestPairs raw, p.frs_e_code = k →
        p.frs_name.length ≤ x.frs_name.length := by
  have hperm : (sortFRSPairs (harvestPairs raw)).Perm (harvestPairs raw) :=
    List.perm_insertionSort frsLe (harvestPairs raw)
  have hsorted : List.Pairwise frsLe (sortFRSPairs (harvestPairs raw)) :=
    List.sorted_insertionSort frsLe (harvestPairs raw)
  have hfind : List.find? (fun p => p.frs_e_code == k) (dimFRSUnique raw) =
      List.find? (fun p => p.frs_e_code == k) (sortFRSPairs (harvestPairs raw)) :=
    dedupFirstBy_find? _ [] _ k rfl
  have hk2 : k ∈ (sortFRSPairs (harvestPairs raw)).map (fun p => p.frs_e_code) := by
    rcases List.mem_map.mp hk with ⟨p, hp, hpk⟩
    exact List.mem_map.mpr ⟨p, hperm.mem_iff.mpr hp, hpk⟩
  have hsome := (mem_map_key_iff_find? (fun p : FRSPair => p.frs_e_code)
    (sortFRSPairs (harvestPairs raw)) k).mp hk2
  rcases Option.isSome_iff_exists.mp hsome with ⟨x, hx⟩
  have hxdim : x ∈ dimFRSUnique raw :=
    List.mem_of_find?_eq_some (hfind.trans hx)
  have hxk : x.frs_e_code = k := by
    have := List.find?_some hx
    rwa [beq_iff_eq] at this
  have hxharv : x ∈ harvestPairs raw :=
    hperm.mem_iff.mp (List.mem_of_find?_eq_some hx)
  refine ⟨dedupFirstBy_nodup _ [] _, ?_, x, hxdim, hxk, hxharv, ?_⟩
  · rw [mem_map_key_iff_find? (fun p => p.frs_e_code) (dimFRSUnique raw) k, hfind, hx]
    rfl
  · intro p hp hpk
    exact sorted_find?_maxlen _ k x hsorted hx p (hperm.mem_iff.mpr hp) hpk

/-- C8 witness: two harvested names for the same code; the dimension
keeps the longer. -/
theorem c8_theorem_witness :
    "E31000001" ∈ (harvestPairs
        [("E31000001", "Avon"), ("E31000001", "Avon Fire and Rescue")]).map
      (fun p => p.frs_e_code) ∧
    ((dimFRSUnique [("E31000001", "Avon"), ("E31000001", "Avon Fire and Rescue")]).map
      (fun p => p.frs_e_code)).Nodup ∧
    "E31000001" ∈ (dimFRSUnique
        [("E31000001", "Avon"), ("E31000001", "Avon Fire and Rescue")]).map
      (fun p => p.frs_e_code) :=
  have h := c8_theorem [("E31000001", "Avon"), ("E31000001", "Avon Fire and Rescue")]
    "E31000001" (by decide)
  ⟨by decide, h.1, h.2.1⟩

theorem lookup_FRS_MAPPINGS (c c2 : String)
    (h : FRS_MAPPINGS.lookup c = some c2) : c2 = "E31000048" := by
  rw [FRS_MAPPINGS] at h
  by_cases h1 : (c == "E31000017") = true
  · simp [List.lookup, h1] at h
    exact h.symm
  · simp only [Bool.not_eq_true] at h1
    by_cases h2 : (c == "E31000021") = true
    · simp [List.lookup, h1, h2] at h
      exact h.symm
    · simp only [Bool.not_eq_true] at h2
      simp [List.lookup, h1, h2] at h

/-- The shape invariant, as a proposition on a code string. -/
def goodCodeShape (c : String) : Prop :=
  c.length = 9 ∧ ∃ a tl, c.data = a :: tl ∧ (a = 'E' ∨ a = 'S' ∨ a = 'W')

theorem goodCodeShape_of_codeShapeOK (c : String)
    (h : codeShapeOK c = true) : goodCodeShape c := by
  unfold codeShapeOK at h
  simp only [Bool.and_eq_true, Bool.or_eq_true, beq_iff_eq] at h
  rcases h with ⟨hlen, hhead⟩
  refine ⟨hlen, ?_⟩
  cases hd : c.data with
  | nil =>
    have hl0 : c.length = 0 := by
      have he : c.length = c.data.length := rfl
      rw [he, hd]
      rfl
    omega
  | cons a tl =>
    refine ⟨a, tl, rfl, ?_⟩
    rw [hd] at hhead
    simp only [List.headD_cons] at hhead
    tauto

theorem harvestPairs_shape (raw : List (String × String)) (p : FRSPair)
    (hp : p ∈ harvestPairs raw) : goodCodeShape p.frs_e_code := by
  unfold harvestPairs at hp
  rcases List.mem_flatMap.mp hp with ⟨q, _, hq⟩
  by_cases hsh : codeShapeOK (pyStrip q.1) = true
  · rw [if_pos hsh] at hq
    simp only [List.mem_singleton] at hq
    subst hq
    unfold applyFRSMappingPair
    cases hlk : FRS_MAPPINGS.lookup (pyStrip q.1) with
    | none => exact goodCodeShape_of_codeShapeOK _ hsh
    | some c2 =>
      have hc2 := lookup_FRS_MAPPINGS _ _ hlk
      show goodCodeShape c2
      rw [hc2]
      exact ⟨rfl, 'E', ['3', '1', '0', '0', '0', '0', '4', '8'], rfl, Or.inl rfl⟩
  · rw [if_neg hsh] at hq
    simp at hq

/-- C10 (confirmed): every `frs_e_code` in a row of the written
`Dim_FRS` table is a 9-character string whose first character is `E`,
`S` or `W` — pairs failing the shape check are discarded before
deduplication, and the remap only substitutes codes of the same shape,
so the invariant holds for the whole written table. -/
theorem c10_theorem (raw : List (String × String)) (nfcc : List (String × String))
    (r : FRSRow) (hr : r ∈ dimFRSWritten raw nfcc) :
    r.frs_e_code.length = 9 ∧
    ∃ a tl, r.frs_e_code.data = a :: tl ∧ (a = 'E' ∨ a = 'S' ∨ a = 'W') := by
  unfold dimFRSWritten at hr
  rcases List.mem_flatMap.mp hr with ⟨p, hp, hrp⟩
  have hcode : r.frs_e_code = p.frs_e_code := by
    rcases hmatch : (dedupFirstBy (fun x : String × String => x) [] nfcc).filter
        (fun m => m.1 == p.frs_e_code) with _ | ⟨m, ms⟩
    · rw [hmatch] at hrp
      simp only [List.mem_singleton] at hrp
      subst hrp
      rfl
    · rw [hmatch] at hrp
      rcases List.mem_map.mp hrp with ⟨m2, _, hm2⟩
      subst hm2
      rfl
  have hpharv : p ∈ harvestPairs raw :=
    (List.perm_insertionSort frsLe (harvestPairs raw)).mem_iff.mp
      (dedupFirstBy_subset _ [] _ p hp)
  have := harvestPairs_shape raw p hpharv
  rw [hcode]
  exact this

/-- C10 witness: a concrete harvested pair produces a written dimension
row, whose code has the required shape. -/
theorem c10_theorem_witness :
    ("E31000001" : String).length = 9 ∧
    ∃ a tl, ("E31000001" : String).data = a :: tl ∧
      (a = 'E' ∨ a = 'S' ∨ a = 'W') :=
  c10_theorem [("E31000001", "Avon FRS")] []
    { frs_e_code := "E31000001", frs_name := "Avon FRS", family_group := "Unknown" }
    (by decide)

/-! ### `population_silver` scaffold + fill (silver_layer.py lines 234-243)

Input: `df_long` after line 232 (`lsoa_code`, `year`, `population`; the
population column is already `fillna(0).astype(int)`, hence non-null).
The scaffold is the product of the first-appearance-unique keys with the
fixed year range 2010-2025; the left merge puts `NaN` (`none`) where a
key×year has no input row, one output row per matching input row
otherwise; `sort_values(['lsoa_code','year'])` orders blocks by key with
years ascending inside each block.  Note the fill chain
`groupby('lsoa_code')['population'].ffill().bfill()`: the forward fill
is per group, but `.bfill()` is applied to the resulting plain series,
i.e. GLOBALLY across group boundaries — the embedding reproduces this. -/

/-- A row of the long population series (and of the filled output). -/
structure PopRow where
  lsoa_code : String
  year : Int
  population : Int
deriving Repr, DecidableEq

/-- `np.arange(2010, 2026)`: the fixed scaffold year range. -/
def scaffoldYears : List Int :=
  [2010, 2011, 2012, 2013, 2014, 2015, 2016, 2017,
   2018, 2019, 2020, 2021, 2022, 2023, 2024, 2025]

/-- `df_long['lsoa_code'].dropna().unique()`: keys in first-appearance
order. -/
def uniqueKeys (rows : List PopRow) : List String :=
  dedupFirstBy (fun s : String => s) [] (rows.map (fun r => r.lsoa_code))

/-- The population values of the input rows matching one key×year cell
(the left merge emits one row per match). -/
def matchesFor (rows : List PopRow) (k : String) (y : Int) : List Int :=
  ((rows.filter (fun r => r.lsoa_code == k)).filter (fun r => r.year == y)).map
    (fun r => r.population)

/-- One key's block of the merged scaffold, years ascending: `none`
where the merge found no input row. -/
def mergedColumn (rows : List PopRow) (k : String) : List (Int × Option Int) :=
  scaffoldYears.flatMap (fun y =>
    match matchesFor rows k y with
    | [] => [(y, none)]
    | vs => vs.map (fun v => (y, some v)))

/-- Forward fill on a labelled option column, carrying the last seen
value. -/
def ffillGo {β : Type} (carry : Option Int) :
    List (β × Option Int) → List (β × Option Int)
  | [] => []
  | (y, some v) :: rest => (y, some v) :: ffillGo (some v) rest
  | (y, none) :: rest => (y, carry) :: ffillGo carry rest

/-- Backward fill = forward fill of the reversed column. -/
def bfillList {β : Type} (l : List (β × Option Int)) : List (β × Option Int) :=
  (ffillGo none l.reverse).reverse

/-- One key's block after the per-group forward fill, labelled with
`(key, year)`. -/
def labeledFfillBlock (rows : List PopRow) (k : String) :
    List ((String × Int) × Option Int) :=
  (ffillGo none (mergedColumn rows k)).map (fun p => ((k, p.1), p.2))

/-- Lines 238-242 of silver_layer.py: scaffold, left-merge, sort by
(key, year), per-group forward fill, global backward fill, fill the
remaining gaps with 0. -/
def populationScaffoldFill (rows : List PopRow) : List PopRow :=
  (bfillList ((List.insertionSort (fun a b : String => a ≤ b)
      (uniqueKeys rows)).flatMap (labeledFfillBlock rows))).map
    (fun q => { lsoa_code := q.1.1, year := q.1.2, population := q.2.getD 0 })

theorem ffillGo_map_fst {β : Type} (l : List (β × Option Int)) :
    ∀ c, (ffillGo c l).map Prod.fst = l.map Prod.fst := by
  induction l with
  | nil => intro c; rfl
  | cons p rest ih =>
    intro c
    rcases p with ⟨y, _ | v⟩
    · simp [ffillGo, ih]
    · simp [ffillGo, ih]

theorem bfillList_map_fst {β : Type} (l : List (β × Option Int)) :
    (bfillList l).map Prod.fst = l.map Prod.fst := by
  unfold bfillList
  rw [List.map_reverse, ffillGo_map_fst, List.map_reverse, List.reverse_reverse]

theorem mem_map_fst_mergedColumn (rows : List PopRow) (k : String) (y : Int)
    (hy : y ∈ scaffoldYears) : y ∈ (mergedColumn rows k).map Prod.fst := by
  unfold mergedColumn
  rw [List.map_flatMap]
  refine List.mem_flatMap.mpr ⟨y, hy, ?_⟩
  cases hm : matchesFor rows k y with
  | nil => simp
  | cons v vs => simp

theorem mem_uniqueKeys_iff (rows : List PopRow) (k : String) :
    k ∈ uniqueKeys rows ↔ k ∈ rows.map (fun r => r.lsoa_code) := by
  unfold uniqueKeys
  have h1 : k ∈ dedupFirstBy (fun s : String => s) []
      (rows.map (fun r => r.lsoa_code)) ↔
      k ∈ (dedupFirstBy (fun s : String => s) []
        (rows.map (fun r => r.lsoa_code))).map (fun s : String => s) := by
    rw [List.map_id']
  rw [h1, mem_map_key_iff_find? (fun s : String => s) _ k,
      dedupFirstBy_find? _ [] _ k rfl,
      ← mem_map_key_iff_find? (fun s : String => s) _ k, List.map_id']

/-- Totality of the scaffold+fill: every key of the input series gets a
row for every year of the fixed range. -/
theorem populationScaffoldFill_total (rows : List PopRow) (k : String) (y : Int)
    (hk : k ∈ rows.map (fun r => r.lsoa_code)) (hy : y ∈ scaffoldYears) :
    ∃ r, r ∈ populationScaffoldFill rows ∧ r.lsoa_code = k ∧ r.year = y := by
  have hks : k ∈ List.insertionSort (fun a b : String => a ≤ b) (uniqueKeys rows) :=
    (List.perm_insertionSort _ _).mem_iff.mpr ((mem_uniqueKeys_iff rows k).mpr hk)
  have hlbl : (k, y) ∈ ((List.insertionSort (fun a b : String => a ≤ b)
      (uniqueKeys rows)).flatMap (labeledFfillBlock rows)).map Prod.fst := by
    rw [List.map_flatMap]
    refine List.mem_flatMap.mpr ⟨k, hks, ?_⟩
    unfold labeledFfillBlock
    rw [List.map_map]
    have : (Prod.fst ∘ fun p : Int × Option Int => ((k, p.1), p.2)) =
        (fun p : Int × Option Int => (k, p.1)) := rfl
    rw [this]
    have h2 := mem_map_fst_mergedColumn rows k y hy
    rw [← ffillGo_map_fst (mergedColumn rows k) none] at h2
    rcases List.mem_map.mp h2 with ⟨p, hp, hpy⟩
    exact List.mem_map.mpr ⟨p, hp, by rw [hpy]⟩
  rw [← bfillList_map_fst] at hlbl
  rcases List.mem_map.mp hlbl with ⟨q, hq, hqk⟩
  refine ⟨{ lsoa_code := q.1.1, year := q.1.2, population := q.2.getD 0 },
    List.mem_map.mpr ⟨q, hq, rfl⟩, ?_, ?_⟩
  · rw [show q.1.1 = (Prod.fst q).1 from rfl, hqk]
  · rw [show q.1.2 = (Prod.fst q).2 from rfl, hqk]

/-- The carry left by a forward fill: the last filled value, or the
initial carry if the column had none. -/
def carryAfter {β : Type} (c : Option Int) (l : List (β × Option Int)) : Option Int :=
  l.foldl (fun acc p => match p.2 with | some v => some v | none => acc) c

theorem ffillGo_append {β : Type} (l₁ l₂ : List (β × Option Int)) :
    ∀ c, ffillGo c (l₁ ++ l₂) = ffillGo c l₁ ++ ffillGo (carryAfter c l₁) l₂ := by
  induction l₁ with
  | nil => intro c; rfl
  | cons p rest ih =>
    intro c
    rcases p with ⟨y, _ | v⟩
    · simp only [List.cons_append, ffillGo, carryAfter, List.foldl_cons]
      exact congrArg (List.cons (y, c)) (ih c)
    · simp only [List.cons_append, ffillGo, carryAfter, List.foldl_cons]
      exact congrArg (List.cons (y, some v)) (ih (some v))

/-- A forward fill whose column starts with a value ignores the incoming
carry. -/
theorem ffillGo_head_some {β : Type} (x : β) (v : Int)
    (l : List (β × Option Int)) (c c' : Option Int) :
    ffillGo c ((x, some v) :: l) = ffillGo c' ((x, some v) :: l) := rfl

theorem label_mem_of_mem_labeledFfillBlock (rows : List PopRow) (k : String)
    (q : (String × Int) × Option Int) (hq : q ∈ labeledFfillBlock rows k) :
    q.1.1 = k := by
  unfold labeledFfillBlock at hq
  rcases List.mem_map.mp hq with ⟨p, _, hp⟩
  rw [← hp]

theorem label_key_of_mem_flatMap_blocks (rows : List PopRow) (ks : List String)
    (q : (String × Int) × Option Int)
    (hq : q ∈ ks.flatMap (labeledFfillBlock rows)) : q.1.1 ∈ ks := by
  rcases List.mem_flatMap.mp hq with ⟨k, hk, hqk⟩
  rw [label_mem_of_mem_labeledFfillBlock rows k q hqk]
  exact hk

theorem key_ne_of_mem_ffill_blocks (rows : List PopRow) (ks : List String)
    (k : String) (hk : k ∉ ks) (c : Option Int)
    (q : (String × Int) × Option Int)
    (hq : q ∈ ffillGo c (ks.flatMap (labeledFfillBlock rows)).reverse) :
    q.1.1 ≠ k := by
  have h1 : q.1 ∈ (ffillGo c (ks.flatMap (labeledFfillBlock rows)).reverse).map
      Prod.fst := List.mem_map.mpr ⟨q, hq, rfl⟩
  rw [ffillGo_map_fst, List.map_reverse, List.mem_reverse] at h1
  rcases List.mem_map.mp h1 with ⟨p, hp, hpq⟩
  have h2 := label_key_of_mem_flatMap_blocks rows ks p hp
  intro hqk
  rw [hpq, hqk] at h2
  exact hk h2

/-- The filled block the claim predicts for a key observed only at 2015
and 2020: the 2015 value back-filled to 2010-2014 (and forward-filled to
2016-2019), the 2020 value forward-filled to 2021-2025. -/
def scenarioSeries (k : String) (v15 v20 : Int) : List PopRow :=
  [⟨k, 2010, v15⟩, ⟨k, 2011, v15⟩, ⟨k, 2012, v15⟩, ⟨k, 2013, v15⟩, ⟨k, 2014, v15⟩,
   ⟨k, 2015, v15⟩, ⟨k, 2016, v15⟩, ⟨k, 2017, v15⟩, ⟨k, 2018, v15⟩, ⟨k, 2019, v15⟩,
   ⟨k, 2020, v20⟩, ⟨k, 2021, v20⟩, ⟨k, 2022, v20⟩, ⟨k, 2023, v20⟩, ⟨k, 2024, v20⟩,
   ⟨k, 2025, v20⟩]

theorem populationScaffoldFill_scenario (rows : List PopRow) (k : String)
    (v15 v20 : Int)
    (hflt : rows.filter (fun r => r.lsoa_code == k) =
      [{ lsoa_code := k, year := 2015, population := v15 },
       { lsoa_code := k, year := 2020, population := v20 }]) :
    ∃ pre suf,
      populationScaffoldFill rows = pre ++ scenarioSeries k v15 v20 ++ suf ∧
      (∀ r ∈ pre, r.lsoa_code ≠ k) ∧ (∀ r ∈ suf, r.lsoa_code ≠ k) := by
  have hmerged : mergedColumn rows k =
      [(2010, none), (2011, none), (2012, none), (2013, none), (2014, none),
       (2015, some v15), (2016, none), (2017, none), (2018, none), (2019, none),
       (2020, some v20), (2021, none), (2022, none), (2023, none), (2024, none),
       (2025, none)] := by
    unfold mergedColumn matchesFor
    rw [hflt]
    simp +decide [scaffoldYears]
  have hblock : labeledFfillBlock rows k =
      [((k, 2010), none), ((k, 2011), none), ((k, 2012), none), ((k, 2013), none),
       ((k, 2014), none), ((k, 2015), some v15), ((k, 2016), some v15),
       ((k, 2017), some v15), ((k, 2018), some v15), ((k, 2019), some v15),
       ((k, 2020), some v20), ((k, 2021), some v20), ((k, 2022), some v20),
       ((k, 2023), some v20), ((k, 2024), some v20), ((k, 2025), some v20)] := by
    unfold labeledFfillBlock
    rw [hmerged]
    rfl
  have hB2 : ∀ c, ffillGo c (labeledFfillBlock rows k).reverse =
      [((k, 2025), some v20), ((k, 2024), some v20), ((k, 2023), some v20),
       ((k, 2022), some v20), ((k, 2021), some v20), ((k, 2020), some v20),
       ((k, 2019), some v15), ((k, 2018), some v15), ((k, 2017), some v15),
       ((k, 2016), some v15), ((k, 2015), some v15), ((k, 2014), some v15),
       ((k, 2013), some v15), ((k, 2012), some v15), ((k, 2011), some v15),
       ((k, 2010), some v15)] := by
    intro c
    rw [hblock]
    rfl
  have hkrows : k ∈ rows.map (fun r => r.lsoa_code) := by
    have hr : ({ lsoa_code := k, year := 2015, population := v15 } : PopRow) ∈
        rows.filter (fun r => r.lsoa_code == k) := by
      rw [hflt]
      simp
    exact List.mem_map.mpr ⟨_, (List.mem_filter.mp hr).1, rfl⟩
  have hkin : k ∈ List.insertionSort (fun a b : String => a ≤ b) (uniqueKeys rows) :=
    (List.perm_insertionSort _ _).mem_iff.mpr ((mem_uniqueKeys_iff rows k).mpr hkrows)
  have hnodup : (List.insertionSort (fun a b : String => a ≤ b)
      (uniqueKeys rows)).Nodup := by
    have h1 : (uniqueKeys rows).Nodup := by
      have h2 := dedupFirstBy_nodup (fun s : String => s) []
        (rows.map (fun r => r.lsoa_code))
      rwa [List.map_id'] at h2
    exact ((List.perm_insertionSort _ _).nodup_iff).mpr h1
  obtain ⟨ks1, ks2, hsplit⟩ := List.append_of_mem hkin
  have hk1 : k ∉ ks1 := by
    rw [hsplit] at hnodup
    rcases List.nodup_append.mp hnodup with ⟨_, _, hdisj⟩
    intro hmem
    exact hdisj hmem (List.mem_cons_self k ks2)
  have hk2 : k ∉ ks2 := by
    rw [hsplit] at hnodup
    rcases List.nodup_append.mp hnodup with ⟨_, hcons, _⟩
    exact (List.nodup_cons.mp hcons).1
  have hL : (List.insertionSort (fun a b : String => a ≤ b)
      (uniqueKeys rows)).flatMap (labeledFfillBlock rows) =
      ks1.flatMap (labeledFfillBlock rows) ++ labeledFfillBlock rows k ++
        ks2.flatMap (labeledFfillBlock rows) := by
    rw [hsplit, List.flatMap_append, List.flatMap_cons, List.append_assoc]
  refine ⟨(ffillGo (carryAfter
      (carryAfter (none : Option Int) (ks2.flatMap (labeledFfillBlock rows)).reverse)
      (labeledFfillBlock rows k).reverse)
      (ks1.flatMap (labeledFfillBlock rows)).reverse).reverse.map
        (fun q => { lsoa_code := q.1.1, year := q.1.2, population := q.2.getD 0 }),
    (ffillGo none (ks2.flatMap (labeledFfillBlock rows)).reverse).reverse.map
        (fun q => { lsoa_code := q.1.1, year := q.1.2, population := q.2.getD 0 }),
    ?_, ?_, ?_⟩
  · unfold populationScaffoldFill bfillList
    rw [hL, List.reverse_append, List.reverse_append, ffillGo_append, ffillGo_append,
        hB2, List.append_assoc]
    rw [List.reverse_append, List.reverse_append]
    rw [List.map_append, List.map_append]
    have hscen : List.map
        (fun q => ({ lsoa_code := q.1.1, year := q.1.2,
                     population := q.2.getD 0 } : PopRow))
        ([((k, 2025), some v20), ((k, 2024), some v20), ((k, 2023), some v20),
          ((k, 2022), some v20), ((k, 2021), some v20), ((k, 2020), some v20),
          ((k, 2019), some v15), ((k, 2018), some v15), ((k, 2017), some v15),
          ((k, 2016), some v15), ((k, 2015), some v15), ((k, 2014), some v15),
          ((k, 2013), some v15), ((k, 2012), some v15), ((k, 2011), some v15),
          ((k, 2010), some v15)].reverse) = scenarioSeries k v15 v20 := rfl
    rw [hscen, List.append_assoc]
  · intro r hr
    rcases List.mem_map.mp hr with ⟨q, hq, hqr⟩
    rw [List.mem_reverse] at hq
    have hne := key_ne_of_mem_ffill_blocks rows ks1 k hk1 _ q hq
    rw [← hqr]
    exact hne
  · intro r hr
    rcases List.mem_map.mp hr with ⟨q, hq, hqr⟩
    rw [List.mem_reverse] at hq
    have hne := key_ne_of_mem_ffill_blocks rows ks2 k hk2 _ q hq
    rw [← hqr]
    exact hne

/-- C3 (confirmed): after scaffolding the population series across the
fixed year range 2010-2025 and filling, every key of the series has a
row (with an integer value) for every year in range; and a key observed
only at 2015 and 2020 gets a contiguous block whose values are the 2015
value for 2010-2014 (back-fill) and for 2015-2019 (forward fill), and
the 2020 value for 2020-2025, with no other rows for that key. -/
theorem c3_theorem :
    (∀ (rows : List PopRow) (k : String) (y : Int),
        k ∈ rows.map (fun r => r.lsoa_code) → y ∈ scaffoldYears →
        ∃ r, r ∈ populationScaffoldFill rows ∧ r.lsoa_code = k ∧ r.year = y) ∧
    (∀ (rows : List PopRow) (k : String) (v15 v20 : Int),
        rows.filter (fun r => r.lsoa_code == k) =
          [{ lsoa_code := k, year := 2015, population := v15 },
           { lsoa_code := k, year := 2020, population := v20 }] →
        ∃ pre suf,
          populationScaffoldFill rows = pre ++ scenarioSeries k v15 v20 ++ suf ∧
          (∀ r ∈ pre, r.lsoa_code ≠ k) ∧ (∀ r ∈ suf, r.lsoa_code ≠ k)) :=
  ⟨populationScaffoldFill_total, populationScaffoldFill_scenario⟩

/-- C3 witness: a concrete two-observation series, instantiating both
the totality clause (year 2012) and the 2015/2020 scenario clause. -/
theorem c3_theorem_witness :
    (∃ r, r ∈ populationScaffoldFill
        [⟨"A", 2015, 100⟩, ⟨"A", 2020, 200⟩] ∧
      r.lsoa_code = "A" ∧ r.year = 2012) ∧
    (∃ pre suf, populationScaffoldFill [⟨"A", 2015, 100⟩, ⟨"A", 2020, 200⟩] =
        pre ++ scenarioSeries "A" 100 200 ++ suf ∧
      (∀ r ∈ pre, r.lsoa_code ≠ "A") ∧ (∀ r ∈ suf, r.lsoa_code ≠ "A")) :=
  ⟨c3_theorem.1 [⟨"A", 2015, 100⟩, ⟨"A", 2020, 200⟩] "A" 2012 (by decide) (by decide),
   c3_theorem.2 [⟨"A", 2015, 100⟩, ⟨"A", 2020, 200⟩] "A" 100 200 (by decide)⟩

/-! ### `fact_population` (gold_layer.py lines 99-138)

The asset reads the silver `population_long` series (`df_pop`) and the
`Dim_Geography` table (`df_geo`), adds a `financial_year` column to
`df_pop`, computes `df_merged = pd.merge(df_pop, df_geo, on="lsoa_code",
how="inner")` — and then writes `df_pop`, NOT `df_merged`, as
`Fact_Population_LSOA` (line 119); the merged frame feeds only the
MSOA/LAD/FRS rollups. -/

/-- A row of the written `Fact_Population_LSOA` table. -/
structure FactPopRow where
  lsoa_code : String
  year : Int
  population : Int
  financial_year : String
deriving Repr, DecidableEq

/-- A row of `df_merged`: the series row joined with its geography
row. -/
structure FactPopJoinedRow where
  lsoa_code : String
  year : Int
  population : Int
  financial_year : String
  geo : GeoRow
deriving Repr, DecidableEq

/-- Lines 110-113: `df_pop['financial_year'] = year.astype(str) + "/" +
(year+1).astype(str).str[-2:]`. -/
def addFinancialYearCol (pop : List PopRow) : List FactPopRow :=
  pop.map (fun p =>
    { lsoa_code := p.lsoa_code, year := p.year, population := p.population,
      financial_year := intToString p.year ++ "/" ++
        lastTwoChars (intToString (p.year + 1)) })

/-- Line 115: `df_merged = pd.merge(df_pop, df_geo, on="lsoa_code",
how="inner")`. -/
def factPopulationMerged (pop : List PopRow) (geo : List GeoRow) :
    List FactPopJoinedRow :=
  (addFinancialYearCol pop).flatMap (fun p =>
    (geo.filter (fun g => g.lsoa_code == p.lsoa_code)).map (fun g =>
      { lsoa_code := p.lsoa_code, year := p.year, population := p.population,
        financial_year := p.financial_year, geo := g }))

/-- Lines 118-119: the rows written to `Fact_Population_LSOA` are
`df_pop` after the financial-year derivation — the geography dimension
plays no part in this write. -/
def factPopulationLSOA (pop : List PopRow) (_geo : List GeoRow) : List FactPopRow :=
  addFinancialYearCol pop

/-- C2 (corrected claim falls out of this counterexample): the written
row-level fact is NOT the joined frame.  With a one-row series whose
`lsoa_code` is absent from the geography dimension, the inner join is
empty, yet `Fact_Population_LSOA` still contains the row (and no written
row carries geography columns). -/
theorem c2_counterexample :
    factPopulationLSOA [⟨"E01000001", 2010, 5⟩] [] =
      [⟨"E01000001", 2010, 5, "2010/11"⟩] ∧
    factPopulationMerged [⟨"E01000001", 2010, 5⟩] [] = [] ∧
    ¬ (∀ r ∈ factPopulationLSOA [⟨"E01000001", 2010, 5⟩] ([] : List GeoRow),
        ∃ j ∈ factPopulationMerged [⟨"E01000001", 2010, 5⟩] ([] : List GeoRow),
          j.lsoa_code = r.lsoa_code ∧ j.year = r.year) := by
  refine ⟨rfl, rfl, fun h => ?_⟩
  rcases h ⟨"E01000001", 2010, 5, "2010/11"⟩ (by decide) with ⟨j, hj, _⟩
  rw [show factPopulationMerged [⟨"E01000001", 2010, 5⟩] [] =
    ([] : List FactPopJoinedRow) from rfl] at hj
  exact absurd hj (List.not_mem_nil j)

/-- C2 (amended): the row-level fact written as `Fact_Population_LSOA`
is the long population series itself with the derived financial-year
column `year ++ "/" ++ last-two-digits-of (year+1)`; it does not depend
on the geography dimension at all, and a series row whose `lsoa_code` is
absent from the dimension is still written even though the inner join
(which feeds only the MSOA/LAD/FRS rollups) has no row for it. -/
theorem c2_theorem (pop : List PopRow) (geo geo2 : List GeoRow) :
    factPopulationLSOA pop geo =
      pop.map (fun p =>
        { lsoa_code := p.lsoa_code, year := p.year, population := p.population,
          financial_year := intToString p.year ++ "/" ++
            lastTwoChars (intToString (p.year + 1)) }) ∧
    factPopulationLSOA pop geo = factPopulationLSOA pop geo2 ∧
    (∀ p ∈ pop, p.lsoa_code ∉ geo.map (fun g => g.lsoa_code) →
      (∃ r ∈ factPopulationLSOA pop geo, r.lsoa_code = p.lsoa_code ∧
        r.year = p.year ∧ r.population = p.population) ∧
      ¬ ∃ j ∈ factPopulationMerged pop geo, j.lsoa_code = p.lsoa_code) := by
  refine ⟨rfl, rfl, fun p hp hgeo => ⟨?_, fun hex => ?_⟩⟩
  · exact ⟨_, List.mem_map.mpr ⟨p, hp, rfl⟩, rfl, rfl, rfl⟩
  · rcases hex with ⟨j, hj, hjk⟩
    unfold factPopulationMerged at hj
    rcases List.mem_flatMap.mp hj with ⟨q, _, hq⟩
    rcases List.mem_map.mp hq with ⟨g, hg, hgj⟩
    rcases List.mem_filter.mp hg with ⟨hggeo, hgq⟩
    apply hgeo
    rw [beq_iff_eq] at hgq
    have hql : j.lsoa_code = q.lsoa_code := by rw [← hgj]
    exact List.mem_map.mpr ⟨g, hggeo, by rw [hgq, ← hql, hjk]⟩

/-- C2 witness: the amended theorem at the counterexample's input. -/
theorem c2_theorem_witness :
    (∃ r ∈ factPopulationLSOA [⟨"E01000001", 2010, 5⟩] ([] : List GeoRow),
      r.lsoa_code = "E01000001" ∧ r.year = 2010 ∧ r.population = 5) ∧
    ¬ ∃ j ∈ factPopulationMerged [⟨"E01000001", 2010, 5⟩] ([] : List GeoRow),
      j.lsoa_code = "E01000001" :=
  ( c2_theorem [⟨"E01000001", 2010, 5⟩] [] []).2.2
    ⟨"E01000001", 2010, 5⟩ (by decide) (by decide)

end FireProj
